import Mathlib

/-!
Verification of the AVM Merkle-tree trace-builder gadget
(`barretenberg/vm/avm/trace/gadgets/merkle_tree.cpp`, namespace `bb::avm_trace`).

The C++ code is shallowly embedded below.  Field elements (`FF`) are an
abstract `Field F` with decidable equality; the poseidon2 hash gadget is an
external parameter `hash : F → F → ℕ → F` (two field inputs and a domain
identifier).  `uint32_t` values are natural numbers reduced `% 2^32` exactly
where the C++ arithmetic can wrap (the `clk << 6` shift, the uint32 addition
`entry_id + i`, and the `static_cast<uint32_t>(path.size())` truncation).
The shared destination row table `std::vector<AvmFullRow<FF>>` is a
`List (AvmFullRow F)`; `main_trace.at(counter)` throwing on an out-of-range
index is modelled by returning `none`.
-/

/-- The modulus of `uint32_t` arithmetic, 2^32. -/
def U32 : ℕ := 4294967296

/-- One record of the entry log, mirroring the C++ `MerkleEntry` struct:
`clk`, `leaf_value`, `leaf_index`, `path`, the (never populated) `path_bits`,
`path_values`, `root`, and the three boolean flags (value-initialized to
`false` by the designated-initializer expression in the source). -/
structure MerkleEntry (F : Type) where
  clk : ℕ
  leaf_value : F
  leaf_index : ℕ
  path : List F
  path_bits : List Bool
  path_values : List F
  root : F
  is_membership_op : Bool
  is_member : Bool
  is_update_op : Bool

/-- A default entry, used only as the default of `List.getD` lookups. -/
def defEntry (F : Type) [Zero F] : MerkleEntry F :=
  { clk := 0, leaf_value := 0, leaf_index := 0, path := [], path_bits := [],
    path_values := [], root := 0, is_membership_op := false,
    is_member := false, is_update_op := false }

/-- The trace builder state: the append-only entry log `merkle_check_trace`. -/
structure AvmMerkleTreeTraceBuilder (F : Type) where
  merkle_check_trace : List (MerkleEntry F)

/-- The `for (uint32_t i = 0; i < path_length; i++)` loop body of
`compute_root_from_path`: threads `curr_value` and `curr_index` through the
remaining siblings, returning the accumulated `path_values` and the final
`curr_value`.  `i` is the loop counter and the domain identifier is the
uint32 sum `entry_id + i`. -/
def computeRootLoop {F : Type} (hash : F → F → ℕ → F) (entry_id : ℕ) :
    ℕ → F → ℕ → List F → List F × F
  | _, curr_value, _, [] => ([], curr_value)
  | i, curr_value, curr_index, s :: rest =>
    let new_value :=
      if curr_index % 2 = 0 then hash curr_value s ((entry_id + i) % U32)
      else hash s curr_value ((entry_id + i) % U32)
    let r := computeRootLoop hash entry_id (i + 1) new_value (curr_index / 2) rest
    (new_value :: r.1, r.2)

/-- `AvmMerkleTreeTraceBuilder::compute_root_from_path`.  `path_length` is the
uint32 truncation of `path.size()`; `entry_id` is the uint32 shift `clk << 6`;
the loop runs over the first `path_length` siblings.  Returns the fresh
`MerkleEntry` (flags false, `path_bits` left empty, exactly as in the source). -/
def compute_root_from_path {F : Type} (hash : F → F → ℕ → F)
    (clk : ℕ) (leaf_value : F) (leaf_index : ℕ) (path : List F) : MerkleEntry F :=
  let path_length := path.length % U32
  let entry_id := (clk * 64) % U32
  let r := computeRootLoop hash entry_id 0 leaf_value leaf_index (path.take path_length)
  { clk := clk, leaf_value := leaf_value, leaf_index := leaf_index,
    path := path, path_bits := [], path_values := r.1, root := r.2,
    is_membership_op := false, is_member := false, is_update_op := false }

/-- `AvmMerkleTreeTraceBuilder::check_membership`: computes the root, compares
it to the expected `root`, replaces the entry's root by the expected one on a
mismatch, appends the entry, and returns `is_member` together with the new
builder state. -/
def check_membership {F : Type} [DecidableEq F] (hash : F → F → ℕ → F)
    (b : AvmMerkleTreeTraceBuilder F) (clk : ℕ) (leaf_value : F)
    (leaf_index : ℕ) (path : List F) (root : F) :
    Bool × AvmMerkleTreeTraceBuilder F :=
  let entry := compute_root_from_path hash clk leaf_value leaf_index path
  let is_member : Bool := decide (entry.root = root)
  let entry2 : MerkleEntry F :=
    { entry with is_membership_op := true, is_member := is_member,
                 root := if is_member then entry.root else root }
  (entry2.is_member, { merkle_check_trace := b.merkle_check_trace ++ [entry2] })

/-- `AvmMerkleTreeTraceBuilder::update_leaf_index`: computes the root, marks
the entry as an update, appends it, and returns the computed root together
with the new builder state. -/
def update_leaf_index {F : Type} [DecidableEq F] (hash : F → F → ℕ → F)
    (b : AvmMerkleTreeTraceBuilder F) (clk : ℕ) (leaf_value : F)
    (leaf_index : ℕ) (path : List F) : F × AvmMerkleTreeTraceBuilder F :=
  let entry := compute_root_from_path hash clk leaf_value leaf_index path
  let entry2 : MerkleEntry F := { entry with is_update_op := true }
  (entry2.root, { merkle_check_trace := b.merkle_check_trace ++ [entry2] })

/-- The columns of `AvmFullRow<FF>` that `finalize` writes. -/
structure AvmFullRow (F : Type) where
  merkle_tree_clk : F
  merkle_tree_leaf_index : F
  merkle_tree_leaf_value : F
  merkle_tree_expected_tree_root : F
  merkle_tree_leaf_index_is_even : F
  merkle_tree_left_hash : F
  merkle_tree_right_hash : F
  merkle_tree_output_hash : F
  merkle_tree_sibling_value : F
  merkle_tree_path_len : F
  merkle_tree_path_len_inv : F
  merkle_tree_sel_merkle_tree : F
  merkle_tree_diff_inv : F
  merkle_tree_latch : F
  merkle_tree_is_member : F
  merkle_tree_sel_membership_op : F
  merkle_tree_sel_update_op : F

/-- An all-zero row (the state of a freshly allocated table row). -/
def zeroRow (F : Type) [Zero F] : AvmFullRow F :=
  { merkle_tree_clk := 0, merkle_tree_leaf_index := 0,
    merkle_tree_leaf_value := 0, merkle_tree_expected_tree_root := 0,
    merkle_tree_leaf_index_is_even := 0, merkle_tree_left_hash := 0,
    merkle_tree_right_hash := 0, merkle_tree_output_hash := 0,
    merkle_tree_sibling_value := 0, merkle_tree_path_len := 0,
    merkle_tree_path_len_inv := 0, merkle_tree_sel_merkle_tree := 0,
    merkle_tree_diff_inv := 0, merkle_tree_latch := 0,
    merkle_tree_is_member := 0, merkle_tree_sel_membership_op := 0,
    merkle_tree_sel_update_op := 0 }

/-- The body of `finalize`'s inner loop on one destination row `old`:
all `merkle_tree_*` columns are assigned; the four closing columns
(`latch`, `is_member`, `sel_membership_op`, `sel_update_op`) are assigned
only when `i == path_length - 1` and otherwise keep `old`'s values. -/
def writeRow {F : Type} [Field F] [DecidableEq F] (e : MerkleEntry F)
    (path_length i : ℕ) (curr_value : F) (leaf_index : ℕ)
    (old : AvmFullRow F) : AvmFullRow F :=
  let sibling_value := e.path.getD i 0
  let output := e.path_values.getD i 0
  let base : AvmFullRow F :=
    { old with
      merkle_tree_clk := (((e.clk * 64) % U32 + i : ℕ) : F),
      merkle_tree_leaf_index := (leaf_index : F),
      merkle_tree_leaf_value := curr_value,
      merkle_tree_expected_tree_root := e.root,
      merkle_tree_leaf_index_is_even := if leaf_index % 2 = 0 then 1 else 0,
      merkle_tree_left_hash := if leaf_index % 2 = 0 then curr_value else sibling_value,
      merkle_tree_right_hash := if leaf_index % 2 = 0 then sibling_value else curr_value,
      merkle_tree_output_hash := output,
      merkle_tree_sibling_value := sibling_value,
      merkle_tree_path_len := ((path_length - i - 1 : ℕ) : F),
      merkle_tree_path_len_inv :=
        if path_length - i - 1 = 0 then 0 else ((path_length - i - 1 : ℕ) : F)⁻¹,
      merkle_tree_sel_merkle_tree := 1,
      merkle_tree_diff_inv :=
        if output - e.root = 0 then 0 else (output - e.root)⁻¹ }
  if i = path_length - 1 then
    { base with
      merkle_tree_latch := 1,
      merkle_tree_is_member := if e.is_member then 1 else 0,
      merkle_tree_sel_membership_op := if e.is_membership_op then 1 else 0,
      merkle_tree_sel_update_op := if e.is_update_op then 1 else 0 }
  else base

/-- `finalize`'s inner loop over the `levels` remaining levels of entry `e`,
starting at level `i` with the threaded `curr_value` and `leaf_index`,
consuming one destination row per level.  Running out of rows models the
`std::vector::at` out-of-range fault.  Returns the written rows and the
untouched remainder of the table. -/
def finalizeEntryAux {F : Type} [Field F] [DecidableEq F] (e : MerkleEntry F)
    (path_length : ℕ) :
    ℕ → ℕ → F → ℕ → List (AvmFullRow F) →
    Option (List (AvmFullRow F) × List (AvmFullRow F))
  | 0, _, _, _, rows => some ([], rows)
  | _ + 1, _, _, _, [] => none
  | levels + 1, i, curr_value, leaf_index, old :: rest =>
    match finalizeEntryAux e path_length levels (i + 1)
        (e.path_values.getD i 0) (leaf_index / 2) rest with
    | none => none
    | some (written, leftover) =>
      some (writeRow e path_length i curr_value leaf_index old :: written, leftover)

/-- `finalize`'s outer loop over the entry log, threading the shared row
cursor (represented by splitting off each entry's written prefix). -/
def finalizeAux {F : Type} [Field F] [DecidableEq F] :
    List (MerkleEntry F) → List (AvmFullRow F) → Option (List (AvmFullRow F))
  | [], rows => some rows
  | e :: es, rows =>
    match finalizeEntryAux e (e.path.length % U32) (e.path.length % U32) 0
        e.leaf_value e.leaf_index rows with
    | none => none
    | some (written, leftover) =>
      match finalizeAux es leftover with
      | none => none
      | some out => some (written ++ out)

/-- `AvmMerkleTreeTraceBuilder::finalize(main_trace)`: expands the entry log
into the table, starting at row 0; `none` models the fatal out-of-range
fault of `main_trace.at`. -/
def finalize {F : Type} [Field F] [DecidableEq F]
    (b : AvmMerkleTreeTraceBuilder F) (main_trace : List (AvmFullRow F)) :
    Option (List (AvmFullRow F)) :=
  finalizeAux b.merkle_check_trace main_trace

/-- Total number of rows `finalize` demands: the sum over entries of the
(uint32-truncated) path length. -/
def totalRows {F : Type} (es : List (MerkleEntry F)) : ℕ :=
  (es.map (fun e => e.path.length % U32)).sum

/-- Index of the first row of entry `j`'s block in the finalized table. -/
def rowOffset {F : Type} (es : List (MerkleEntry F)) (j : ℕ) : ℕ :=
  totalRows (es.take j)

/-- Specification-side description of the rows `finalizeEntryAux` writes for
one entry, as a pure list (same threading of `curr_value` / `leaf_index`). -/
def blockRows {F : Type} [Field F] [DecidableEq F] (e : MerkleEntry F)
    (path_length : ℕ) :
    ℕ → ℕ → F → ℕ → List (AvmFullRow F) → List (AvmFullRow F)
  | 0, _, _, _, _ => []
  | levels + 1, i, curr_value, leaf_index, olds =>
    writeRow e path_length i curr_value leaf_index (olds.headD (zeroRow F)) ::
      blockRows e path_length levels (i + 1) (e.path_values.getD i 0)
        (leaf_index / 2) olds.tail

/-- Specification-side description of the whole finalized table when capacity
suffices: each entry's block followed by the untouched remainder. -/
def traceRows {F : Type} [Field F] [DecidableEq F] :
    List (MerkleEntry F) → List (AvmFullRow F) → List (AvmFullRow F)
  | [], olds => olds
  | e :: es, olds =>
    blockRows e (e.path.length % U32) (e.path.length % U32) 0
        e.leaf_value e.leaf_index olds ++
      traceRows es (olds.drop (e.path.length % U32))

/-- Structural well-formedness of a logged entry: parallel `path_values`,
never-populated `path_bits`, exactly one operation flag, and `is_member`
only on membership entries. -/
def EntryWF {F : Type} (e : MerkleEntry F) : Prop :=
  e.path_values.length = e.path.length ∧ e.path_bits = [] ∧
    e.is_membership_op ≠ e.is_update_op ∧
    (e.is_member = true → e.is_membership_op = true)

/-- One recorder call: a membership check or a leaf update. -/
inductive RecorderOp (F : Type) where
  | check (clk : ℕ) (leaf_value : F) (leaf_index : ℕ) (path : List F) (root : F)
  | update (clk : ℕ) (leaf_value : F) (leaf_index : ℕ) (path : List F)

/-- The sibling path of a recorder call. -/
def opPath {F : Type} : RecorderOp F → List F
  | .check _ _ _ p _ => p
  | .update _ _ _ p => p

/-- Apply one recorder call to the builder state. -/
def applyOp {F : Type} [DecidableEq F] (hash : F → F → ℕ → F)
    (b : AvmMerkleTreeTraceBuilder F) : RecorderOp F → AvmMerkleTreeTraceBuilder F
  | .check clk v idx p r => (check_membership hash b clk v idx p r).2
  | .update clk v idx p => (update_leaf_index hash b clk v idx p).2

/-- Run a sequence of recorder calls. -/
def runOps {F : Type} [DecidableEq F] (hash : F → F → ℕ → F)
    (b : AvmMerkleTreeTraceBuilder F) : List (RecorderOp F) → AvmMerkleTreeTraceBuilder F
  | [] => b
  | op :: ops => runOps hash (applyOp hash b op) ops

instance : Fact (Nat.Prime 101) := ⟨by norm_num⟩

/-- A concrete stand-in for the external hash gadget over `ZMod 101`. -/
def whash : ZMod 101 → ZMod 101 → ℕ → ZMod 101 :=
  fun a b n => a * 3 + b * 5 + (n : ZMod 101)

/-- A concrete stand-in for the external hash gadget over `ℚ`. -/
def wqhash : ℚ → ℚ → ℕ → ℚ := fun a b n => a * 3 + b * 5 + (n : ℚ)

/-- Concrete membership entry used in evaluation examples. -/
def wEntryM : MerkleEntry (ZMod 101) :=
  { clk := 1, leaf_value := 2, leaf_index := 1, path := [5, 7], path_bits := [],
    path_values := [3, 9], root := 9, is_membership_op := true, is_member := true,
    is_update_op := false }

/-- Concrete update entry used in evaluation examples. -/
def wEntryU : MerkleEntry (ZMod 101) :=
  { clk := 2, leaf_value := 4, leaf_index := 2, path := [6], path_bits := [],
    path_values := [8], root := 7, is_membership_op := false, is_member := false,
    is_update_op := true }

/-- Concrete entry log used in evaluation examples. -/
def wEntries : List (MerkleEntry (ZMod 101)) := [wEntryM, wEntryU]

/-- Concrete zeroed destination table used in evaluation examples. -/
def wTable : List (AvmFullRow (ZMod 101)) := List.replicate 4 (zeroRow (ZMod 101))

/-- The finalized table for `wEntries` over `wTable`. -/
def wT : List (AvmFullRow (ZMod 101)) :=
  (finalize { merkle_check_trace := wEntries } wTable).getD []

/-- Concrete membership entry over `ℚ` used in evaluation examples. -/
def wqEntry : MerkleEntry ℚ :=
  { clk := 1, leaf_value := 2, leaf_index := 1, path := [5, 7], path_bits := [],
    path_values := [3, 9], root := 9, is_membership_op := true, is_member := true,
    is_update_op := false }

/-- Concrete zeroed destination table over `ℚ`. -/
def wqTable : List (AvmFullRow ℚ) := List.replicate 2 (zeroRow ℚ)

/-- The finalized table for `[wqEntry]` over `wqTable`. -/
def wqT : List (AvmFullRow ℚ) :=
  (finalize { merkle_check_trace := [wqEntry] } wqTable).getD []

/-- Concrete recorder-call sequence used in evaluation examples. -/
def wOps : List (RecorderOp (ZMod 101)) :=
  [RecorderOp.check 0 1 1 [2, 3] 4, RecorderOp.update 1 5 2 [6]]

/-- The empty builder over `ZMod 101`. -/
def wEmptyB : AvmMerkleTreeTraceBuilder (ZMod 101) := { merkle_check_trace := [] }

/-! ## Helper lemmas on lists -/

theorem getD_cons_eq {α : Type} (a d : α) (l : List α) (k : ℕ) :
    (a :: l).getD k d = if k = 0 then a else l.getD (k - 1) d := by
  cases k <;> simp

theorem headD_eq_getD {α : Type} (l : List α) (d : α) : l.headD d = l.getD 0 d := by
  cases l <;> rfl

theorem tail_getD {α : Type} (l : List α) (k : ℕ) (d : α) :
    l.tail.getD k d = l.getD (k + 1) d := by
  cases l <;> simp

theorem drop_getD {α : Type} (m : ℕ) :
    ∀ (l : List α) (n : ℕ) (d : α), (l.drop m).getD n d = l.getD (m + n) d := by
  induction m with
  | zero => intro l n d; simp
  | succ m ih =>
    intro l n d
    cases l with
    | nil => simp
    | cons a l => simp [Nat.succ_add, ih l n d]

theorem replicate_getD {α : Type} (a : α) :
    ∀ (n m : ℕ), (List.replicate n a).getD m a = a := by
  intro n
  induction n with
  | zero => intro m; simp
  | succ n ih =>
    intro m
    cases m with
    | zero => simp [List.replicate]
    | succ m => simp [List.replicate, ih m]

/-! ## Path Evaluator: characterization of the replay loop -/

theorem computeRootLoop_length {F : Type} (hash : F → F → ℕ → F) (eid : ℕ) :
    ∀ (l : List F) (i : ℕ) (c : F) (idx : ℕ),
      ((computeRootLoop hash eid i c idx l).1).length = l.length := by
  intro l
  induction l with
  | nil => intro i c idx; simp [computeRootLoop]
  | cons s rest ih => intro i c idx; simp [computeRootLoop, ih]

theorem computeRootLoop_getD {F : Type} [Zero F] (hash : F → F → ℕ → F) (eid : ℕ) :
    ∀ (l : List F) (i : ℕ) (c : F) (idx : ℕ) (k : ℕ), k < l.length →
      (computeRootLoop hash eid i c idx l).1.getD k 0 =
        (if (idx / 2 ^ k) % 2 = 0 then
          hash (if k = 0 then c else (computeRootLoop hash eid i c idx l).1.getD (k - 1) 0)
            (l.getD k 0) ((eid + (i + k)) % U32)
        else
          hash (l.getD k 0)
            (if k = 0 then c else (computeRootLoop hash eid i c idx l).1.getD (k - 1) 0)
            ((eid + (i + k)) % U32)) := by
  intro l
  induction l with
  | nil => intro i c idx k hk; simp at hk
  | cons s rest ih =>
    intro i c idx k hk
    cases k with
    | zero => simp [computeRootLoop]
    | succ k =>
      have hk2 : k < rest.length := by simpa using hk
      have step := ih (i + 1)
        (if idx % 2 = 0 then hash c s ((eid + i) % U32) else hash s c ((eid + i) % U32))
        (idx / 2) k hk2
      have hdiv : idx / 2 / 2 ^ k = idx / 2 ^ (k + 1) := by
        rw [Nat.div_div_eq_div_mul]
        congr 1
        rw [pow_succ, mul_comm]
      have harith : i + 1 + k = i + (k + 1) := by omega
      simp only [computeRootLoop, List.getD_cons_succ, List.length_cons]
      rw [step, hdiv, harith]
      cases k with
      | zero => simp
      | succ k => simp

theorem computeRootLoop_root {F : Type} (hash : F → F → ℕ → F) (eid : ℕ) :
    ∀ (l : List F) (i : ℕ) (c : F) (idx : ℕ),
      (computeRootLoop hash eid i c idx l).2 =
        (computeRootLoop hash eid i c idx l).1.getLastD c := by
  intro l
  induction l with
  | nil => intro i c idx; simp [computeRootLoop]
  | cons s rest ih =>
    intro i c idx
    simp only [computeRootLoop]
    rw [ih]
    generalize (computeRootLoop hash eid (i + 1)
      (if idx % 2 = 0 then hash c s ((eid + i) % U32) else hash s c ((eid + i) % U32))
      (idx / 2) rest).1 = l2
    cases l2 with
    | nil => rfl
    | cons x xs => simp [List.getLastD]

/-- C1: `compute_root_from_path` performs exactly the leaf-to-root replay:
`path_values` has one hash per level; level `i` hashes the threaded value
(the leaf at level 0, the previous level's output afterwards) with the
sibling `path[i]`, operand order selected by the parity of the `i`-times
halved leaf index, at (uint32) domain `(clk << 6) + i`; and the returned
root is the final threaded value. -/
theorem c1_path_evaluator_replay {F : Type} [Zero F] (hash : F → F → ℕ → F)
    (clk : ℕ) (leaf_value : F) (leaf_index : ℕ) (path : List F)
    (hlen : path.length < U32) :
    ((compute_root_from_path hash clk leaf_value leaf_index path).path_values.length
        = path.length) ∧
    (∀ i, i < path.length →
      (compute_root_from_path hash clk leaf_value leaf_index path).path_values.getD i 0 =
        if (leaf_index / 2 ^ i) % 2 = 0 then
          hash (if i = 0 then leaf_value else
              (compute_root_from_path hash clk leaf_value leaf_index
                path).path_values.getD (i - 1) 0)
            (path.getD i 0) (((clk * 64) % U32 + i) % U32)
        else
          hash (path.getD i 0)
            (if i = 0 then leaf_value else
              (compute_root_from_path hash clk leaf_value leaf_index
                path).path_values.getD (i - 1) 0)
            (((clk * 64) % U32 + i) % U32)) ∧
    ((compute_root_from_path hash clk leaf_value leaf_index path).root =
      (compute_root_from_path hash clk leaf_value leaf_index
        path).path_values.getLastD leaf_value) := by
  have hmod : path.length % U32 = path.length := Nat.mod_eq_of_lt hlen
  simp only [compute_root_from_path, hmod, List.take_length]
  refine ⟨computeRootLoop_length hash ((clk * 64) % U32) path 0 leaf_value leaf_index,
    fun i hi => ?_,
    computeRootLoop_root hash ((clk * 64) % U32) path 0 leaf_value leaf_index⟩
  have h := computeRootLoop_getD hash ((clk * 64) % U32) path 0 leaf_value leaf_index i hi
  simpa using h

/-- Witness for C1 at a concrete depth-2 input over `ZMod 101`. -/
theorem c1_path_evaluator_replay_witness :
    (([(5 : ZMod 101), 7]).length < U32) ∧
    (((compute_root_from_path whash 1 2 1 [5, 7]).path_values.length
        = ([(5 : ZMod 101), 7]).length) ∧
    (∀ i, i < ([(5 : ZMod 101), 7]).length →
      (compute_root_from_path whash 1 2 1 [5, 7]).path_values.getD i 0 =
        if ((1 : ℕ) / 2 ^ i) % 2 = 0 then
          whash (if i = 0 then 2 else
              (compute_root_from_path whash 1 2 1 [5, 7]).path_values.getD (i - 1) 0)
            (([(5 : ZMod 101), 7]).getD i 0) (((1 * 64) % U32 + i) % U32)
        else
          whash (([(5 : ZMod 101), 7]).getD i 0)
            (if i = 0 then 2 else
              (compute_root_from_path whash 1 2 1 [5, 7]).path_values.getD (i - 1) 0)
            (((1 * 64) % U32 + i) % U32)) ∧
    ((compute_root_from_path whash 1 2 1 [5, 7]).root =
      (compute_root_from_path whash 1 2 1 [5, 7]).path_values.getLastD 2)) :=
  ⟨by norm_num [U32], c1_path_evaluator_replay whash 1 2 1 [5, 7] (by norm_num [U32])⟩

/-! ## Row Compiler: structural lemmas -/

theorem finalizeEntryAux_eq {F : Type} [Field F] [DecidableEq F]
    (e : MerkleEntry F) (pl : ℕ) :
    ∀ (levels i : ℕ) (c : F) (idx : ℕ) (olds : List (AvmFullRow F)),
      levels ≤ olds.length →
      finalizeEntryAux e pl levels i c idx olds =
        some (blockRows e pl levels i c idx olds, olds.drop levels) := by
  intro levels
  induction levels with
  | zero => intro i c idx olds _; simp [finalizeEntryAux, blockRows]
  | succ levels ih =>
    intro i c idx olds hle
    cases olds with
    | nil => simp at hle
    | cons old rest =>
      have hle2 : levels ≤ rest.length := by simpa using hle
      simp only [finalizeEntryAux]
      rw [ih (i + 1) (e.path_values.getD i 0) (idx / 2) rest hle2]
      simp [blockRows]

theorem blockRows_length {F : Type} [Field F] [DecidableEq F]
    (e : MerkleEntry F) (pl : ℕ) :
    ∀ (levels i : ℕ) (c : F) (idx : ℕ) (olds : List (AvmFullRow F)),
      (blockRows e pl levels i c idx olds).length = levels := by
  intro levels
  induction levels with
  | zero => intro i c idx olds; simp [blockRows]
  | succ levels ih => intro i c idx olds; simp [blockRows, ih]

theorem blockRows_getD {F : Type} [Field F] [DecidableEq F]
    (e : MerkleEntry F) (pl : ℕ) :
    ∀ (levels i : ℕ) (c : F) (idx : ℕ) (olds : List (AvmFullRow F)) (k : ℕ),
      k < levels →
      (blockRows e pl levels i c idx olds).getD k (zeroRow F) =
        writeRow e pl (i + k)
          (if k = 0 then c else e.path_values.getD (i + k - 1) 0)
          (idx / 2 ^ k) (olds.getD k (zeroRow F)) := by
  intro levels
  induction levels with
  | zero => intro i c idx olds k hk; omega
  | succ levels ih =>
    intro i c idx olds k hk
    cases k with
    | zero => cases olds <;> simp [blockRows]
    | succ k =>
      have hk2 : k < levels := by omega
      have step := ih (i + 1) (e.path_values.getD i 0) (idx / 2) olds.tail k hk2
      have hdiv : idx / 2 / 2 ^ k = idx / 2 ^ (k + 1) := by
        rw [Nat.div_div_eq_div_mul]
        congr 1
        rw [pow_succ, mul_comm]
      have hif : (if k = 0 then e.path_values.getD i 0
          else e.path_values.getD (i + 1 + k - 1) 0) =
          e.path_values.getD (i + k) 0 := by
        rcases Nat.eq_zero_or_pos k with h0 | hp
        · subst h0; simp
        · rw [if_neg (by omega)]
          congr 1
          omega
      rw [hdiv, hif, tail_getD] at step
      simp only [blockRows, List.getD_cons_succ]
      rw [step]
      have h1 : i + 1 + k = i + (k + 1) := by omega
      have h3 : i + (k + 1) - 1 = i + k := by omega
      have h2 : (if k + 1 = 0 then c else e.path_values.getD (i + (k + 1) - 1) 0) =
          e.path_values.getD (i + k) 0 := by
        rw [if_neg (by omega), h3]
      rw [h1, h2]

theorem finalizeAux_eq {F : Type} [Field F] [DecidableEq F] :
    ∀ (es : List (MerkleEntry F)) (olds : List (AvmFullRow F)),
      totalRows es ≤ olds.length →
      finalizeAux es olds = some (traceRows es olds) := by
  intro es
  induction es with
  | nil => intro olds _; simp [finalizeAux, traceRows]
  | cons e es ih =>
    intro olds hle
    have htot : totalRows (e :: es) = e.path.length % U32 + totalRows es := by
      simp [totalRows]
    have hple : e.path.length % U32 ≤ olds.length := by omega
    have hrest : totalRows es ≤ (olds.drop (e.path.length % U32)).length := by
      simp only [List.length_drop]; omega
    simp only [finalizeAux, traceRows,
      finalizeEntryAux_eq e (e.path.length % U32) (e.path.length % U32) 0
        e.leaf_value e.leaf_index olds hple,
      ih (olds.drop (e.path.length % U32)) hrest]

theorem finalizeEntryAux_none {F : Type} [Field F] [DecidableEq F]
    (e : MerkleEntry F) (pl : ℕ) :
    ∀ (levels i : ℕ) (c : F) (idx : ℕ) (olds : List (AvmFullRow F)),
      olds.length < levels →
      finalizeEntryAux e pl levels i c idx olds = none := by
  intro levels
  induction levels with
  | zero => intro i c idx olds h; omega
  | succ levels ih =>
    intro i c idx olds h
    cases olds with
    | nil => simp [finalizeEntryAux]
    | cons old rest =>
      have : rest.length < levels := by simpa using h
      simp only [finalizeEntryAux]
      rw [ih (i + 1) (e.path_values.getD i 0) (idx / 2) rest this]

theorem finalizeAux_none {F : Type} [Field F] [DecidableEq F] :
    ∀ (es : List (MerkleEntry F)) (olds : List (AvmFullRow F)),
      olds.length < totalRows es →
      finalizeAux es olds = none := by
  intro es
  induction es with
  | nil => intro olds h; simp [totalRows] at h
  | cons e es ih =>
    intro olds h
    have htot : totalRows (e :: es) = e.path.length % U32 + totalRows es := by
      simp [totalRows]
    by_cases hc : olds.length < e.path.length % U32
    · simp [finalizeAux, finalizeEntryAux_none e (e.path.length % U32)
        (e.path.length % U32) 0 e.leaf_value e.leaf_index olds hc]
    · push_neg at hc
      have hrest : (olds.drop (e.path.length % U32)).length < totalRows es := by
        simp only [List.length_drop]; omega
      simp [finalizeAux, finalizeEntryAux_eq e (e.path.length % U32)
        (e.path.length % U32) 0 e.leaf_value e.leaf_index olds hc, ih _ hrest]

theorem traceRows_length {F : Type} [Field F] [DecidableEq F] :
    ∀ (es : List (MerkleEntry F)) (olds : List (AvmFullRow F)),
      totalRows es ≤ olds.length →
      (traceRows es olds).length = olds.length := by
  intro es
  induction es with
  | nil => intro olds _; simp [traceRows]
  | cons e es ih =>
    intro olds hle
    have htot : totalRows (e :: es) = e.path.length % U32 + totalRows es := by
      simp [totalRows]
    have hrest : totalRows es ≤ (olds.drop (e.path.length % U32)).length := by
      simp only [List.length_drop]; omega
    simp only [traceRows, List.length_append, blockRows_length, ih _ hrest,
      List.length_drop]
    omega

theorem traceRows_drop {F : Type} [Field F] [DecidableEq F] :
    ∀ (es : List (MerkleEntry F)) (olds : List (AvmFullRow F)),
      totalRows es ≤ olds.length →
      (traceRows es olds).drop (totalRows es) = olds.drop (totalRows es) := by
  intro es
  induction es with
  | nil => intro olds _; simp [traceRows, totalRows]
  | cons e es ih =>
    intro olds hle
    have htot : totalRows (e :: es) = e.path.length % U32 + totalRows es := by
      simp [totalRows]
    have hrest : totalRows es ≤ (olds.drop (e.path.length % U32)).length := by
      simp only [List.length_drop]; omega
    have hblen : (blockRows e (e.path.length % U32) (e.path.length % U32) 0
        e.leaf_value e.leaf_index olds).length = e.path.length % U32 :=
      blockRows_length e _ _ _ _ _ _
    rw [htot]
    have hsplit : ∀ (l1 l2 : List (AvmFullRow F)) (m n : ℕ), l1.length = m →
        (l1 ++ l2).drop (m + n) = l2.drop n := by
      intro l1 l2 m n hm
      rw [List.drop_append_eq_append_drop]
      have h1 : l1.drop (m + n) = [] := by
        apply List.drop_eq_nil_of_le; omega
      rw [h1, hm]
      simp only [List.nil_append]
      congr 1
      omega
    rw [traceRows, hsplit _ _ _ _ hblen, ih _ hrest, List.drop_drop]

theorem rowOffset_cons_succ {F : Type} (e : MerkleEntry F) (es : List (MerkleEntry F))
    (j : ℕ) :
    rowOffset (e :: es) (j + 1) = e.path.length % U32 + rowOffset es j := by
  simp [rowOffset, totalRows, List.take_succ_cons]

theorem traceRows_getD {F : Type} [Field F] [DecidableEq F] :
    ∀ (es : List (MerkleEntry F)) (olds : List (AvmFullRow F)) (j i : ℕ),
      totalRows es ≤ olds.length → j < es.length →
      i < (es.getD j (defEntry F)).path.length % U32 →
      (traceRows es olds).getD (rowOffset es j + i) (zeroRow F) =
        writeRow (es.getD j (defEntry F))
          ((es.getD j (defEntry F)).path.length % U32) i
          (if i = 0 then (es.getD j (defEntry F)).leaf_value
           else (es.getD j (defEntry F)).path_values.getD (i - 1) 0)
          ((es.getD j (defEntry F)).leaf_index / 2 ^ i)
          (olds.getD (rowOffset es j + i) (zeroRow F)) := by
  intro es
  induction es with
  | nil => intro olds j i _ hj _; simp at hj
  | cons e es ih =>
    intro olds j i hcap hj hi
    have htot : totalRows (e :: es) = e.path.length % U32 + totalRows es := by
      simp [totalRows]
    have hblen : (blockRows e (e.path.length % U32) (e.path.length % U32) 0
        e.leaf_value e.leaf_index olds).length = e.path.length % U32 :=
      blockRows_length e _ _ _ _ _ _
    cases j with
    | zero =>
      have hi2 : i < e.path.length % U32 := by simpa using hi
      have hoff : rowOffset (e :: es) 0 = 0 := by simp [rowOffset, totalRows]
      rw [hoff]
      simp only [Nat.zero_add, List.getD_cons_zero]
      rw [traceRows, List.getD_append _ _ _ _ (by omega : i < _)]
      have := blockRows_getD e (e.path.length % U32) (e.path.length % U32) 0
        e.leaf_value e.leaf_index olds i hi2
      rw [this]
      simp
    | succ j =>
      have hj2 : j < es.length := by simpa using hj
      have hi2 : i < (es.getD j (defEntry F)).path.length % U32 := by simpa using hi
      have hrest : totalRows es ≤ (olds.drop (e.path.length % U32)).length := by
        simp only [List.length_drop]; omega
      rw [rowOffset_cons_succ]
      have hartih : e.path.length % U32 + rowOffset es j + i =
          e.path.length % U32 + (rowOffset es j + i) := by omega
      rw [hartih]
      rw [traceRows, List.getD_append_right _ _ _ _ (by omega : _ ≤ _)]
      have hsub : e.path.length % U32 + (rowOffset es j + i) -
          (blockRows e (e.path.length % U32) (e.path.length % U32) 0
            e.leaf_value e.leaf_index olds).length = rowOffset es j + i := by
        rw [hblen]; omega
      rw [hsub]
      rw [ih (olds.drop (e.path.length % U32)) j i hrest hj2 hi2]
      rw [drop_getD]
      simp [List.getD_cons_succ]

theorem finalize_some_inv {F : Type} [Field F] [DecidableEq F]
    (es : List (MerkleEntry F)) (table T : List (AvmFullRow F))
    (hT : finalize { merkle_check_trace := es } table = some T) :
    totalRows es ≤ table.length ∧ T = traceRows es table := by
  by_cases h : totalRows es ≤ table.length
  · refine ⟨h, ?_⟩
    have heq := finalizeAux_eq es table h
    have hT2 : finalizeAux es table = some T := hT
    rw [heq] at hT2
    exact (Option.some_inj.mp hT2).symm
  · exfalso
    push_neg at h
    have hnone := finalizeAux_none es table h
    have hT2 : finalizeAux es table = some T := hT
    rw [hnone] at hT2
    exact Option.noConfusion hT2

theorem totalRows_index_decomp {F : Type} [Zero F] :
    ∀ (es : List (MerkleEntry F)) (k : ℕ), k < totalRows es →
      ∃ j i, j < es.length ∧ i < (es.getD j (defEntry F)).path.length % U32 ∧
        k = rowOffset es j + i := by
  intro es
  induction es with
  | nil => intro k hk; simp [totalRows] at hk
  | cons e es ih =>
    intro k hk
    have htot : totalRows (e :: es) = e.path.length % U32 + totalRows es := by
      simp [totalRows]
    by_cases hc : k < e.path.length % U32
    · refine ⟨0, k, by simp, by simpa using hc, ?_⟩
      simp [rowOffset, totalRows]
    · push_neg at hc
      obtain ⟨j, i, hj, hi, hk2⟩ := ih (k - e.path.length % U32) (by omega)
      refine ⟨j + 1, i, by simpa using hj, by simpa using hi, ?_⟩
      rw [rowOffset_cons_succ]
      omega

theorem writeRow_base_fields {F : Type} [Field F] [DecidableEq F]
    (e : MerkleEntry F) (pl i : ℕ) (c : F) (idx : ℕ) (old : AvmFullRow F) :
    ((writeRow e pl i c idx old).merkle_tree_clk = (((e.clk * 64) % U32 + i : ℕ) : F)) ∧
    ((writeRow e pl i c idx old).merkle_tree_leaf_index = (idx : F)) ∧
    ((writeRow e pl i c idx old).merkle_tree_leaf_value = c) ∧
    ((writeRow e pl i c idx old).merkle_tree_expected_tree_root = e.root) ∧
    ((writeRow e pl i c idx old).merkle_tree_leaf_index_is_even =
      if idx % 2 = 0 then 1 else 0) ∧
    ((writeRow e pl i c idx old).merkle_tree_left_hash =
      if idx % 2 = 0 then c else e.path.getD i 0) ∧
    ((writeRow e pl i c idx old).merkle_tree_right_hash =
      if idx % 2 = 0 then e.path.getD i 0 else c) ∧
    ((writeRow e pl i c idx old).merkle_tree_output_hash = e.path_values.getD i 0) ∧
    ((writeRow e pl i c idx old).merkle_tree_sibling_value = e.path.getD i 0) ∧
    ((writeRow e pl i c idx old).merkle_tree_path_len = ((pl - i - 1 : ℕ) : F)) ∧
    ((writeRow e pl i c idx old).merkle_tree_path_len_inv =
      if pl - i - 1 = 0 then 0 else ((pl - i - 1 : ℕ) : F)⁻¹) ∧
    ((writeRow e pl i c idx old).merkle_tree_sel_merkle_tree = 1) ∧
    ((writeRow e pl i c idx old).merkle_tree_diff_inv =
      if e.path_values.getD i 0 - e.root = 0 then 0
      else (e.path_values.getD i 0 - e.root)⁻¹) := by
  by_cases h : i = pl - 1 <;> simp [writeRow, h]

theorem writeRow_latch_last {F : Type} [Field F] [DecidableEq F]
    (e : MerkleEntry F) (pl i : ℕ) (c : F) (idx : ℕ) (old : AvmFullRow F)
    (h : i = pl - 1) :
    ((writeRow e pl i c idx old).merkle_tree_latch = 1) ∧
    ((writeRow e pl i c idx old).merkle_tree_is_member =
      if e.is_member then 1 else 0) ∧
    ((writeRow e pl i c idx old).merkle_tree_sel_membership_op =
      if e.is_membership_op then 1 else 0) ∧
    ((writeRow e pl i c idx old).merkle_tree_sel_update_op =
      if e.is_update_op then 1 else 0) := by
  simp [writeRow, h]

theorem writeRow_latch_mid {F : Type} [Field F] [DecidableEq F]
    (e : MerkleEntry F) (pl i : ℕ) (c : F) (idx : ℕ) (old : AvmFullRow F)
    (h : ¬ i = pl - 1) :
    ((writeRow e pl i c idx old).merkle_tree_latch = old.merkle_tree_latch) ∧
    ((writeRow e pl i c idx old).merkle_tree_is_member = old.merkle_tree_is_member) ∧
    ((writeRow e pl i c idx old).merkle_tree_sel_membership_op =
      old.merkle_tree_sel_membership_op) ∧
    ((writeRow e pl i c idx old).merkle_tree_sel_update_op =
      old.merkle_tree_sel_update_op) := by
  simp [writeRow, h]

/-- C3: when the row table has enough rows, `finalize` succeeds, consumes
exactly `sum(len(path))` rows starting at cursor position 0 (the table keeps
its length and every row from position `totalRows` on is untouched). -/
theorem c3_finalize_row_accounting {F : Type} [Field F] [DecidableEq F]
    (b : AvmMerkleTreeTraceBuilder F) (table : List (AvmFullRow F))
    (hcap : totalRows b.merkle_check_trace ≤ table.length) :
    ∃ T, finalize b table = some T ∧ T.length = table.length ∧
      T.drop (totalRows b.merkle_check_trace) =
        table.drop (totalRows b.merkle_check_trace) :=
  ⟨traceRows b.merkle_check_trace table,
    finalizeAux_eq b.merkle_check_trace table hcap,
    traceRows_length b.merkle_check_trace table hcap,
    traceRows_drop b.merkle_check_trace table hcap⟩

/-- Witness for C3 at a concrete two-entry log (3 rows demanded, 4 available). -/
theorem c3_finalize_row_accounting_witness :
    (totalRows wEntries ≤ wTable.length) ∧
    (∃ T, finalize { merkle_check_trace := wEntries } wTable = some T ∧
      T.length = wTable.length ∧
      T.drop (totalRows wEntries) = wTable.drop (totalRows wEntries)) :=
  ⟨by decide,
    c3_finalize_row_accounting { merkle_check_trace := wEntries } wTable (by decide)⟩

/-- C4: the row written for level `i` of entry `j` carries the level clock
`(clk << 6) + i` (equal to the Path Evaluator's domain identifier), the
`i`-times-halved leaf index, the threaded leaf value (the entry's leaf at
level 0, else the previous level's output), the entry's root, the parity
selector, the parity-ordered left/right operands, the level's output hash,
the sibling, and the remaining length `len(path) - i - 1`. -/
theorem c4_finalize_row_content {F : Type} [Field F] [DecidableEq F]
    (es : List (MerkleEntry F)) (table T : List (AvmFullRow F)) (j i : ℕ)
    (hT : finalize { merkle_check_trace := es } table = some T)
    (hj : j < es.length)
    (hi : i < (es.getD j (defEntry F)).path.length)
    (hd : (es.getD j (defEntry F)).path.length ≤ 63) :
    ((T.getD (rowOffset es j + i) (zeroRow F)).merkle_tree_clk =
      (((((es.getD j (defEntry F)).clk * 64) % U32 + i) % U32 : ℕ) : F)) ∧
    ((T.getD (rowOffset es j + i) (zeroRow F)).merkle_tree_leaf_index =
      (((es.getD j (defEntry F)).leaf_index / 2 ^ i : ℕ) : F)) ∧
    ((T.getD (rowOffset es j + i) (zeroRow F)).merkle_tree_leaf_value =
      (if i = 0 then (es.getD j (defEntry F)).leaf_value
       else (es.getD j (defEntry F)).path_values.getD (i - 1) 0)) ∧
    ((T.getD (rowOffset es j + i) (zeroRow F)).merkle_tree_expected_tree_root =
      (es.getD j (defEntry F)).root) ∧
    ((T.getD (rowOffset es j + i) (zeroRow F)).merkle_tree_leaf_index_is_even =
      (if ((es.getD j (defEntry F)).leaf_index / 2 ^ i) % 2 = 0 then 1 else 0)) ∧
    ((T.getD (rowOffset es j + i) (zeroRow F)).merkle_tree_left_hash =
      (if ((es.getD j (defEntry F)).leaf_index / 2 ^ i) % 2 = 0
       then (if i = 0 then (es.getD j (defEntry F)).leaf_value
             else (es.getD j (defEntry F)).path_values.getD (i - 1) 0)
       else (es.getD j (defEntry F)).path.getD i 0)) ∧
    ((T.getD (rowOffset es j + i) (zeroRow F)).merkle_tree_right_hash =
      (if ((es.getD j (defEntry F)).leaf_index / 2 ^ i) % 2 = 0
       then (es.getD j (defEntry F)).path.getD i 0
       else (if i = 0 then (es.getD j (defEntry F)).leaf_value
             else (es.getD j (defEntry F)).path_values.getD (i - 1) 0))) ∧
    ((T.getD (rowOffset es j + i) (zeroRow F)).merkle_tree_output_hash =
      (es.getD j (defEntry F)).path_values.getD i 0) ∧
    ((T.getD (rowOffset es j + i) (zeroRow F)).merkle_tree_sibling_value =
      (es.getD j (defEntry F)).path.getD i 0) ∧
    ((T.getD (rowOffset es j + i) (zeroRow F)).merkle_tree_path_len =
      (((es.getD j (defEntry F)).path.length - i - 1 : ℕ) : F)) := by
  obtain ⟨hcap, hTe⟩ := finalize_some_inv es table T hT
  subst hTe
  have hlt : (es.getD j (defEntry F)).path.length < U32 := by
    have hU : U32 = 4294967296 := rfl
    omega
  have hpl : (es.getD j (defEntry F)).path.length % U32 =
      (es.getD j (defEntry F)).path.length := Nat.mod_eq_of_lt hlt
  have hi2 : i < (es.getD j (defEntry F)).path.length % U32 := by rw [hpl]; exact hi
  have hrow := traceRows_getD es table j i hcap hj hi2
  rw [hrow]
  obtain ⟨h1, h2, h3, h4, h5, h6, h7, h8, h9, h10, h11, h12, h13⟩ :=
    writeRow_base_fields (es.getD j (defEntry F))
      ((es.getD j (defEntry F)).path.length % U32) i
      (if i = 0 then (es.getD j (defEntry F)).leaf_value
       else (es.getD j (defEntry F)).path_values.getD (i - 1) 0)
      ((es.getD j (defEntry F)).leaf_index / 2 ^ i)
      (table.getD (rowOffset es j + i) (zeroRow F))
  have hsub : (es.getD j (defEntry F)).path.length % U32 - i - 1 =
      (es.getD j (defEntry F)).path.length - i - 1 := by rw [hpl]
  rw [hsub] at h10
  have h64 : 64 ∣ ((es.getD j (defEntry F)).clk * 64) % U32 := by
    refine (Nat.dvd_mod_iff ?_).mpr ⟨(es.getD j (defEntry F)).clk, by ring⟩
    norm_num [U32]
  have hmlt : ((es.getD j (defEntry F)).clk * 64) % U32 < U32 :=
    Nat.mod_lt _ (by norm_num [U32])
  have hnw : (((es.getD j (defEntry F)).clk * 64) % U32 + i) % U32 =
      ((es.getD j (defEntry F)).clk * 64) % U32 + i := by
    apply Nat.mod_eq_of_lt
    obtain ⟨q, hq⟩ := h64
    have hU : U32 = 4294967296 := rfl
    omega
  refine ⟨?_, h2, h3, h4, h5, h6, h7, h8, h9, h10⟩
  rw [hnw, h1]

/-- Witness for C4: the second level of the first concrete entry. -/
theorem c4_finalize_row_content_witness :
    (finalize { merkle_check_trace := wEntries } wTable = some wT) ∧
    (0 < wEntries.length) ∧
    (1 < (wEntries.getD 0 (defEntry (ZMod 101))).path.length) ∧
    ((wEntries.getD 0 (defEntry (ZMod 101))).path.length ≤ 63) ∧
    (((wT.getD (rowOffset wEntries 0 + 1) (zeroRow (ZMod 101))).merkle_tree_clk =
      (((((wEntries.getD 0 (defEntry (ZMod 101))).clk * 64) % U32 + 1) % U32 : ℕ) :
        ZMod 101)) ∧
    ((wT.getD (rowOffset wEntries 0 + 1) (zeroRow (ZMod 101))).merkle_tree_leaf_index =
      (((wEntries.getD 0 (defEntry (ZMod 101))).leaf_index / 2 ^ 1 : ℕ) : ZMod 101)) ∧
    ((wT.getD (rowOffset wEntries 0 + 1) (zeroRow (ZMod 101))).merkle_tree_leaf_value =
      (if 1 = 0 then (wEntries.getD 0 (defEntry (ZMod 101))).leaf_value
       else (wEntries.getD 0 (defEntry (ZMod 101))).path_values.getD (1 - 1) 0)) ∧
    ((wT.getD (rowOffset wEntries 0 + 1)
        (zeroRow (ZMod 101))).merkle_tree_expected_tree_root =
      (wEntries.getD 0 (defEntry (ZMod 101))).root) ∧
    ((wT.getD (rowOffset wEntries 0 + 1)
        (zeroRow (ZMod 101))).merkle_tree_leaf_index_is_even =
      (if ((wEntries.getD 0 (defEntry (ZMod 101))).leaf_index / 2 ^ 1) % 2 = 0
       then 1 else 0)) ∧
    ((wT.getD (rowOffset wEntries 0 + 1) (zeroRow (ZMod 101))).merkle_tree_left_hash =
      (if ((wEntries.getD 0 (defEntry (ZMod 101))).leaf_index / 2 ^ 1) % 2 = 0
       then (if 1 = 0 then (wEntries.getD 0 (defEntry (ZMod 101))).leaf_value
             else (wEntries.getD 0 (defEntry (ZMod 101))).path_values.getD (1 - 1) 0)
       else (wEntries.getD 0 (defEntry (ZMod 101))).path.getD 1 0)) ∧
    ((wT.getD (rowOffset wEntries 0 + 1) (zeroRow (ZMod 101))).merkle_tree_right_hash =
      (if ((wEntries.getD 0 (defEntry (ZMod 101))).leaf_index / 2 ^ 1) % 2 = 0
       then (wEntries.getD 0 (defEntry (ZMod 101))).path.getD 1 0
       else (if 1 = 0 then (wEntries.getD 0 (defEntry (ZMod 101))).leaf_value
             else (wEntries.getD 0 (defEntry (ZMod 101))).path_values.getD (1 - 1) 0))) ∧
    ((wT.getD (rowOffset wEntries 0 + 1) (zeroRow (ZMod 101))).merkle_tree_output_hash =
      (wEntries.getD 0 (defEntry (ZMod 101))).path_values.getD 1 0) ∧
    ((wT.getD (rowOffset wEntries 0 + 1)
        (zeroRow (ZMod 101))).merkle_tree_sibling_value =
      (wEntries.getD 0 (defEntry (ZMod 101))).path.getD 1 0) ∧
    ((wT.getD (rowOffset wEntries 0 + 1) (zeroRow (ZMod 101))).merkle_tree_path_len =
      (((wEntries.getD 0 (defEntry (ZMod 101))).path.length - 1 - 1 : ℕ) : ZMod 101))) :=
  ⟨rfl, by decide, by decide, by decide,
    c4_finalize_row_content wEntries wTable wT 0 1 rfl (by decide) (by decide) (by decide)⟩

theorem writeRow_inverse_laws {F : Type} [Field F] [DecidableEq F]
    (hchar : ∀ n : ℕ, 0 < n → n < U32 → ((n : F) ≠ 0))
    (e : MerkleEntry F) (pl i : ℕ) (c : F) (idx : ℕ) (old : AvmFullRow F)
    (hpl : pl ≤ U32) :
    ((writeRow e pl i c idx old).merkle_tree_path_len = 0 ↔
      (writeRow e pl i c idx old).merkle_tree_path_len_inv = 0) ∧
    ((writeRow e pl i c idx old).merkle_tree_path_len ≠ 0 →
      (writeRow e pl i c idx old).merkle_tree_path_len *
        (writeRow e pl i c idx old).merkle_tree_path_len_inv = 1) ∧
    ((writeRow e pl i c idx old).merkle_tree_output_hash =
        (writeRow e pl i c idx old).merkle_tree_expected_tree_root ↔
      (writeRow e pl i c idx old).merkle_tree_diff_inv = 0) ∧
    ((writeRow e pl i c idx old).merkle_tree_output_hash ≠
        (writeRow e pl i c idx old).merkle_tree_expected_tree_root →
      ((writeRow e pl i c idx old).merkle_tree_output_hash -
          (writeRow e pl i c idx old).merkle_tree_expected_tree_root) *
        (writeRow e pl i c idx old).merkle_tree_diff_inv = 1) := by
  obtain ⟨_, _, _, h4, _, _, _, h8, _, h10, h11, _, h13⟩ :=
    writeRow_base_fields e pl i c idx old
  rw [h4, h8, h10, h11, h13]
  have hzlt : pl - i - 1 ≠ 0 → ((pl - i - 1 : ℕ) : F) ≠ 0 := by
    intro hz
    refine hchar _ (Nat.pos_of_ne_zero hz) ?_
    have hU : U32 = 4294967296 := rfl
    omega
  refine ⟨?_, ?_, ?_, ?_⟩
  · by_cases hz : pl - i - 1 = 0
    · rw [if_pos hz, hz]
      simp
    · rw [if_neg hz]
      exact ⟨fun h => absurd h (hzlt hz), fun h => absurd h (inv_ne_zero (hzlt hz))⟩
  · intro hne0
    have hz : pl - i - 1 ≠ 0 := by
      intro h
      apply hne0
      rw [h]
      simp
    rw [if_neg hz]
    exact mul_inv_cancel₀ (hzlt hz)
  · constructor
    · intro h
      rw [if_pos (sub_eq_zero.mpr h)]
    · intro h
      by_cases hd : e.path_values.getD i 0 - e.root = 0
      · exact sub_eq_zero.mp hd
      · rw [if_neg hd] at h
        exact absurd h (inv_ne_zero hd)
  · intro hne
    have hd : e.path_values.getD i 0 - e.root ≠ 0 := sub_ne_zero.mpr hne
    rw [if_neg hd]
    exact mul_inv_cancel₀ hd

/-- C5: on every row `finalize` writes, the is-zero-indicator laws hold:
`path_len` is zero exactly when its inverse column is zero and otherwise
their product is 1, and the output-hash/root difference is zero exactly when
`diff_inv` is zero and otherwise their product is 1 (so inversion is only
ever applied to nonzero field elements).  `hchar` is the (true for the
BN254 scalar field) assumption that no nonzero uint32 value maps to the
field's zero. -/
theorem c5_finalize_inverse_columns {F : Type} [Field F] [DecidableEq F]
    (hchar : ∀ n : ℕ, 0 < n → n < U32 → ((n : F) ≠ 0))
    (es : List (MerkleEntry F)) (table T : List (AvmFullRow F)) (k : ℕ)
    (hT : finalize { merkle_check_trace := es } table = some T)
    (hk : k < totalRows es) :
    ((T.getD k (zeroRow F)).merkle_tree_path_len = 0 ↔
      (T.getD k (zeroRow F)).merkle_tree_path_len_inv = 0) ∧
    ((T.getD k (zeroRow F)).merkle_tree_path_len ≠ 0 →
      (T.getD k (zeroRow F)).merkle_tree_path_len *
        (T.getD k (zeroRow F)).merkle_tree_path_len_inv = 1) ∧
    ((T.getD k (zeroRow F)).merkle_tree_output_hash =
        (T.getD k (zeroRow F)).merkle_tree_expected_tree_root ↔
      (T.getD k (zeroRow F)).merkle_tree_diff_inv = 0) ∧
    ((T.getD k (zeroRow F)).merkle_tree_output_hash ≠
        (T.getD k (zeroRow F)).merkle_tree_expected_tree_root →
      ((T.getD k (zeroRow F)).merkle_tree_output_hash -
          (T.getD k (zeroRow F)).merkle_tree_expected_tree_root) *
        (T.getD k (zeroRow F)).merkle_tree_diff_inv = 1) := by
  obtain ⟨hcap, hTe⟩ := finalize_some_inv es table T hT
  subst hTe
  obtain ⟨j, i, hj, hi, hk2⟩ := totalRows_index_decomp es k hk
  subst hk2
  rw [traceRows_getD es table j i hcap hj hi]
  exact writeRow_inverse_laws hchar _ _ _ _ _ _
    (le_of_lt (Nat.mod_lt _ (by norm_num [U32])))

/-- Witness for C5: the first row of a concrete finalized table over `ℚ`. -/
theorem c5_finalize_inverse_columns_witness :
    (∀ n : ℕ, 0 < n → n < U32 → ((n : ℚ) ≠ 0)) ∧
    (finalize { merkle_check_trace := [wqEntry] } wqTable = some wqT) ∧
    (0 < totalRows [wqEntry]) ∧
    (((wqT.getD 0 (zeroRow ℚ)).merkle_tree_path_len = 0 ↔
      (wqT.getD 0 (zeroRow ℚ)).merkle_tree_path_len_inv = 0) ∧
    ((wqT.getD 0 (zeroRow ℚ)).merkle_tree_path_len ≠ 0 →
      (wqT.getD 0 (zeroRow ℚ)).merkle_tree_path_len *
        (wqT.getD 0 (zeroRow ℚ)).merkle_tree_path_len_inv = 1) ∧
    ((wqT.getD 0 (zeroRow ℚ)).merkle_tree_output_hash =
        (wqT.getD 0 (zeroRow ℚ)).merkle_tree_expected_tree_root ↔
      (wqT.getD 0 (zeroRow ℚ)).merkle_tree_diff_inv = 0) ∧
    ((wqT.getD 0 (zeroRow ℚ)).merkle_tree_output_hash ≠
        (wqT.getD 0 (zeroRow ℚ)).merkle_tree_expected_tree_root →
      ((wqT.getD 0 (zeroRow ℚ)).merkle_tree_output_hash -
          (wqT.getD 0 (zeroRow ℚ)).merkle_tree_expected_tree_root) *
        (wqT.getD 0 (zeroRow ℚ)).merkle_tree_diff_inv = 1)) :=
  ⟨fun n hn _ => Nat.cast_ne_zero.mpr hn.ne',
    rfl, by decide,
    c5_finalize_inverse_columns (fun n hn _ => Nat.cast_ne_zero.mpr hn.ne')
      [wqEntry] wqTable wqT 0 rfl (by decide)⟩

/-- C6: within one entry's row block, the four closing columns are `0` on
every non-final row (over a zero-initialized table) and, on the final row,
`latch = 1`, `is_member` reflects the entry's flag, and exactly one of the
two operation selectors is `1` according to the entry's operation kind. -/
theorem c6_finalize_latch_block {F : Type} [Field F] [DecidableEq F]
    (es : List (MerkleEntry F)) (n : ℕ) (T : List (AvmFullRow F)) (j i : ℕ)
    (hT : finalize { merkle_check_trace := es }
      (List.replicate n (zeroRow F)) = some T)
    (hj : j < es.length)
    (hi : i < (es.getD j (defEntry F)).path.length)
    (hlen : (es.getD j (defEntry F)).path.length < U32)
    (hop : (es.getD j (defEntry F)).is_membership_op ≠
      (es.getD j (defEntry F)).is_update_op) :
    (i < (es.getD j (defEntry F)).path.length - 1 →
      (T.getD (rowOffset es j + i) (zeroRow F)).merkle_tree_latch = 0 ∧
      (T.getD (rowOffset es j + i) (zeroRow F)).merkle_tree_is_member = 0 ∧
      (T.getD (rowOffset es j + i) (zeroRow F)).merkle_tree_sel_membership_op = 0 ∧
      (T.getD (rowOffset es j + i) (zeroRow F)).merkle_tree_sel_update_op = 0) ∧
    (i = (es.getD j (defEntry F)).path.length - 1 →
      (T.getD (rowOffset es j + i) (zeroRow F)).merkle_tree_latch = 1 ∧
      (T.getD (rowOffset es j + i) (zeroRow F)).merkle_tree_is_member =
        (if (es.getD j (defEntry F)).is_member then 1 else 0) ∧
      (T.getD (rowOffset es j + i) (zeroRow F)).merkle_tree_sel_membership_op =
        (if (es.getD j (defEntry F)).is_membership_op then 1 else 0) ∧
      (T.getD (rowOffset es j + i) (zeroRow F)).merkle_tree_sel_update_op =
        (if (es.getD j (defEntry F)).is_update_op then 1 else 0) ∧
      (T.getD (rowOffset es j + i) (zeroRow F)).merkle_tree_sel_membership_op +
        (T.getD (rowOffset es j + i) (zeroRow F)).merkle_tree_sel_update_op = 1) := by
  obtain ⟨hcap, hTe⟩ := finalize_some_inv es (List.replicate n (zeroRow F)) T hT
  subst hTe
  have hpl : (es.getD j (defEntry F)).path.length % U32 =
      (es.getD j (defEntry F)).path.length := Nat.mod_eq_of_lt hlen
  have hi2 : i < (es.getD j (defEntry F)).path.length % U32 := by rw [hpl]; exact hi
  rw [traceRows_getD es (List.replicate n (zeroRow F)) j i hcap hj hi2,
    replicate_getD]
  constructor
  · intro hlt2
    have hne : ¬ i = (es.getD j (defEntry F)).path.length % U32 - 1 := by
      rw [hpl]
      omega
    obtain ⟨l1, l2, l3, l4⟩ := writeRow_latch_mid (es.getD j (defEntry F))
      ((es.getD j (defEntry F)).path.length % U32) i
      (if i = 0 then (es.getD j (defEntry F)).leaf_value
       else (es.getD j (defEntry F)).path_values.getD (i - 1) 0)
      ((es.getD j (defEntry F)).leaf_index / 2 ^ i) (zeroRow F) hne
    rw [l1, l2, l3, l4]
    simp [zeroRow]
  · intro heq
    have heq2 : i = (es.getD j (defEntry F)).path.length % U32 - 1 := by
      rw [hpl]
      exact heq
    obtain ⟨l1, l2, l3, l4⟩ := writeRow_latch_last (es.getD j (defEntry F))
      ((es.getD j (defEntry F)).path.length % U32) i
      (if i = 0 then (es.getD j (defEntry F)).leaf_value
       else (es.getD j (defEntry F)).path_values.getD (i - 1) 0)
      ((es.getD j (defEntry F)).leaf_index / 2 ^ i) (zeroRow F) heq2
    rw [l1, l2, l3, l4]
    refine ⟨rfl, rfl, rfl, rfl, ?_⟩
    rcases hm : (es.getD j (defEntry F)).is_membership_op <;>
      rcases hu : (es.getD j (defEntry F)).is_update_op <;>
        simp_all

/-- Witness for C6: the final (second) row of the first concrete entry. -/
theorem c6_finalize_latch_block_witness :
    (finalize { merkle_check_trace := wEntries }
      (List.replicate 4 (zeroRow (ZMod 101))) = some wT) ∧
    (0 < wEntries.length) ∧
    (1 < (wEntries.getD 0 (defEntry (ZMod 101))).path.length) ∧
    ((wEntries.getD 0 (defEntry (ZMod 101))).path.length < U32) ∧
    ((wEntries.getD 0 (defEntry (ZMod 101))).is_membership_op ≠
      (wEntries.getD 0 (defEntry (ZMod 101))).is_update_op) ∧
    ((1 < (wEntries.getD 0 (defEntry (ZMod 101))).path.length - 1 →
      (wT.getD (rowOffset wEntries 0 + 1) (zeroRow (ZMod 101))).merkle_tree_latch = 0 ∧
      (wT.getD (rowOffset wEntries 0 + 1)
        (zeroRow (ZMod 101))).merkle_tree_is_member = 0 ∧
      (wT.getD (rowOffset wEntries 0 + 1)
        (zeroRow (ZMod 101))).merkle_tree_sel_membership_op = 0 ∧
      (wT.getD (rowOffset wEntries 0 + 1)
        (zeroRow (ZMod 101))).merkle_tree_sel_update_op = 0) ∧
    (1 = (wEntries.getD 0 (defEntry (ZMod 101))).path.length - 1 →
      (wT.getD (rowOffset wEntries 0 + 1) (zeroRow (ZMod 101))).merkle_tree_latch = 1 ∧
      (wT.getD (rowOffset wEntries 0 + 1)
        (zeroRow (ZMod 101))).merkle_tree_is_member =
        (if (wEntries.getD 0 (defEntry (ZMod 101))).is_member then 1 else 0) ∧
      (wT.getD (rowOffset wEntries 0 + 1)
        (zeroRow (ZMod 101))).merkle_tree_sel_membership_op =
        (if (wEntries.getD 0 (defEntry (ZMod 101))).is_membership_op then 1 else 0) ∧
      (wT.getD (rowOffset wEntries 0 + 1)
        (zeroRow (ZMod 101))).merkle_tree_sel_update_op =
        (if (wEntries.getD 0 (defEntry (ZMod 101))).is_update_op then 1 else 0) ∧
      (wT.getD (rowOffset wEntries 0 + 1)
        (zeroRow (ZMod 101))).merkle_tree_sel_membership_op +
        (wT.getD (rowOffset wEntries 0 + 1)
          (zeroRow (ZMod 101))).merkle_tree_sel_update_op = 1)) :=
  ⟨rfl, by decide, by decide, by decide, by decide,
    c6_finalize_latch_block wEntries 4 wT 0 1 rfl (by decide) (by decide)
      (by decide) (by decide)⟩

/-- C8: `finalize` faults (the out-of-range access of `main_trace.at`) if and
only if the table holds fewer rows than the total demand `sum(len(path))`;
with sufficient capacity it never faults, and an insufficient table always
faults rather than being silently truncated. -/
theorem c8_finalize_capacity_fault {F : Type} [Field F] [DecidableEq F]
    (b : AvmMerkleTreeTraceBuilder F) (table : List (AvmFullRow F)) :
    finalize b table = none ↔ table.length < totalRows b.merkle_check_trace := by
  constructor
  · intro h
    by_contra hc
    push_neg at hc
    have heq := finalizeAux_eq b.merkle_check_trace table hc
    have h2 : finalizeAux b.merkle_check_trace table = none := h
    rw [heq] at h2
    exact Option.noConfusion h2
  · intro h
    exact finalizeAux_none b.merkle_check_trace table h

/-- C2: `check_membership` returns `true` exactly when the computed root
equals the supplied expected root; it appends one membership entry whose
`is_member` equals the returned boolean and whose `root` is the computed
root on a match but the supplied expected root on a mismatch; a mismatch is
an ordinary `false` return, not a failure. -/
theorem c2_check_membership_result {F : Type} [DecidableEq F]
    (hash : F → F → ℕ → F) (b : AvmMerkleTreeTraceBuilder F) (clk : ℕ)
    (leaf_value : F) (leaf_index : ℕ) (path : List F) (expected : F) :
    ((check_membership hash b clk leaf_value leaf_index path expected).1 = true ↔
      (compute_root_from_path hash clk leaf_value leaf_index path).root =
        expected) ∧
    ∃ en : MerkleEntry F,
      (check_membership hash b clk leaf_value leaf_index path
          expected).2.merkle_check_trace = b.merkle_check_trace ++ [en] ∧
      en.is_membership_op = true ∧
      en.is_update_op = false ∧
      en.is_member =
        (check_membership hash b clk leaf_value leaf_index path expected).1 ∧
      en.root =
        (if (compute_root_from_path hash clk leaf_value leaf_index path).root =
            expected
         then (compute_root_from_path hash clk leaf_value leaf_index path).root
         else expected) ∧
      en.clk = clk ∧ en.leaf_value = leaf_value ∧ en.leaf_index = leaf_index ∧
      en.path = path ∧
      en.path_values =
        (compute_root_from_path hash clk leaf_value leaf_index path).path_values := by
  constructor
  · simp [check_membership]
  · refine ⟨_, rfl, rfl, rfl, rfl, ?_, rfl, rfl, rfl, rfl, rfl⟩
    by_cases h :
        (compute_root_from_path hash clk leaf_value leaf_index path).root =
          expected <;>
      simp [check_membership, h]

/-- C7: `update_leaf_index` unconditionally returns the Path Evaluator's
computed root and appends one update entry whose `root` is that computed
root. -/
theorem c7_update_leaf_index_returns_root {F : Type} [DecidableEq F]
    (hash : F → F → ℕ → F) (b : AvmMerkleTreeTraceBuilder F) (clk : ℕ)
    (leaf_value : F) (leaf_index : ℕ) (path : List F) :
    ((update_leaf_index hash b clk leaf_value leaf_index path).1 =
      (compute_root_from_path hash clk leaf_value leaf_index path).root) ∧
    ∃ en : MerkleEntry F,
      (update_leaf_index hash b clk leaf_value leaf_index
          path).2.merkle_check_trace = b.merkle_check_trace ++ [en] ∧
      en.is_update_op = true ∧
      en.is_membership_op = false ∧
      en.is_member = false ∧
      en.root = (compute_root_from_path hash clk leaf_value leaf_index path).root ∧
      en.clk = clk ∧ en.leaf_value = leaf_value ∧ en.leaf_index = leaf_index ∧
      en.path = path ∧
      en.path_values =
        (compute_root_from_path hash clk leaf_value leaf_index path).path_values :=
  ⟨rfl, _, rfl, rfl, rfl, rfl, rfl, rfl, rfl, rfl, rfl, rfl⟩

theorem compute_root_path_values_length {F : Type} (hash : F → F → ℕ → F)
    (clk : ℕ) (leaf_value : F) (leaf_index : ℕ) (path : List F) :
    (compute_root_from_path hash clk leaf_value leaf_index
      path).path_values.length = path.length % U32 := by
  simp only [compute_root_from_path]
  rw [computeRootLoop_length]
  simp [List.length_take, Nat.min_eq_left (Nat.mod_le _ _)]

/-- C9: after any sequence of recorder calls (with uint32-sized paths), the
log only grows by appending — existing entries are never mutated or removed —
and every entry satisfies the structural invariant: `path_values` parallels
`path`, the direction-bit vector `path_bits` stays empty, exactly one of the
two operation flags is set, and `is_member` can be `true` only on membership
entries. -/
theorem c9_recorder_invariants {F : Type} [DecidableEq F]
    (hash : F → F → ℕ → F) (b : AvmMerkleTreeTraceBuilder F)
    (ops : List (RecorderOp F))
    (hb : ∀ e ∈ b.merkle_check_trace, EntryWF e)
    (hops : ∀ op ∈ ops, (opPath op).length < U32) :
    (∃ tail, (runOps hash b ops).merkle_check_trace =
      b.merkle_check_trace ++ tail) ∧
    (∀ e ∈ (runOps hash b ops).merkle_check_trace, EntryWF e) := by
  suffices h : ∀ (ops : List (RecorderOp F)) (b : AvmMerkleTreeTraceBuilder F),
      (∀ e ∈ b.merkle_check_trace, EntryWF e) →
      (∀ op ∈ ops, (opPath op).length < U32) →
      (∃ tail, (runOps hash b ops).merkle_check_trace =
        b.merkle_check_trace ++ tail) ∧
      (∀ e ∈ (runOps hash b ops).merkle_check_trace, EntryWF e) by
    exact h ops b hb hops
  intro ops
  induction ops with
  | nil =>
    intro b hb _
    exact ⟨⟨[], by simp [runOps]⟩, by simpa [runOps] using hb⟩
  | cons op ops ih =>
    intro b hb hops
    have hop : (opPath op).length < U32 := hops op (by simp)
    have hops2 : ∀ o ∈ ops, (opPath o).length < U32 := fun o ho =>
      hops o (by simp [ho])
    have happ : ∃ en, (applyOp hash b op).merkle_check_trace =
        b.merkle_check_trace ++ [en] ∧ EntryWF en := by
      cases op with
      | check clk v idx p r =>
        refine ⟨_, rfl, ?_, rfl, fun hcon => Bool.noConfusion hcon, fun _ => rfl⟩
        have hlen := compute_root_path_values_length hash clk v idx p
        have hmod : p.length % U32 = p.length :=
          Nat.mod_eq_of_lt (by simpa [opPath] using hop)
        simpa [hmod] using hlen
      | update clk v idx p =>
        refine ⟨_, rfl, ?_, rfl, fun hcon => Bool.noConfusion hcon,
          fun hcon => Bool.noConfusion hcon⟩
        have hlen := compute_root_path_values_length hash clk v idx p
        have hmod : p.length % U32 = p.length :=
          Nat.mod_eq_of_lt (by simpa [opPath] using hop)
        simpa [hmod] using hlen
    obtain ⟨en, htr, hwf⟩ := happ
    have hb2 : ∀ e ∈ (applyOp hash b op).merkle_check_trace, EntryWF e := by
      rw [htr]
      intro e he
      rcases List.mem_append.mp he with h | h
      · exact hb e h
      · simp only [List.mem_singleton] at h
        subst h
        exact hwf
    obtain ⟨⟨tail, htail⟩, hall⟩ := ih (applyOp hash b op) hb2 hops2
    refine ⟨⟨[en] ++ tail, ?_⟩, by simpa [runOps] using hall⟩
    have hrun : runOps hash b (op :: ops) = runOps hash (applyOp hash b op) ops := rfl
    rw [hrun, htail, htr, List.append_assoc]

/-- Witness for C9: two concrete recorder calls from the empty builder. -/
theorem c9_recorder_invariants_witness :
    (∀ e ∈ wEmptyB.merkle_check_trace, EntryWF e) ∧
    (∀ op ∈ wOps, (opPath op).length < U32) ∧
    ((∃ tail, (runOps whash wEmptyB wOps).merkle_check_trace =
      wEmptyB.merkle_check_trace ++ tail) ∧
    (∀ e ∈ (runOps whash wEmptyB wOps).merkle_check_trace, EntryWF e)) :=
  ⟨by simp [wEmptyB], by decide,
    c9_recorder_invariants whash wEmptyB wOps (by simp [wEmptyB]) (by decide)⟩

/-- C10: with an empty sibling path, the Path Evaluator returns the leaf
itself as root with no intermediate values, so `check_membership` succeeds
exactly when the leaf equals the supplied root; and `finalize` emits zero
rows for an empty-path entry (its block is skipped entirely, so no latch or
selector row marks it). -/
theorem c10_empty_path {F : Type} [Field F] [DecidableEq F]
    (hash : F → F → ℕ → F) (b : AvmMerkleTreeTraceBuilder F) (clk : ℕ)
    (leaf_value : F) (leaf_index : ℕ) (expected : F) (e : MerkleEntry F)
    (es : List (MerkleEntry F)) (table : List (AvmFullRow F))
    (hpath : e.path = []) :
    ((compute_root_from_path hash clk leaf_value leaf_index []).root =
      leaf_value) ∧
    ((compute_root_from_path hash clk leaf_value leaf_index []).path_values =
      []) ∧
    ((check_membership hash b clk leaf_value leaf_index [] expected).1 = true ↔
      leaf_value = expected) ∧
    (finalizeAux (e :: es) table = finalizeAux es table) := by
  refine ⟨rfl, rfl,
    by simp [check_membership, compute_root_from_path, computeRootLoop], ?_⟩
  have hpl : e.path.length % U32 = 0 := by rw [hpath]; rfl
  simp only [finalizeAux, hpl]
  simp only [finalizeEntryAux]
  cases h : finalizeAux es table <;> simp

/-- Witness for C10 at an entry with an empty path. -/
theorem c10_empty_path_witness :
    ((defEntry (ZMod 101)).path = []) ∧
    (((compute_root_from_path whash 3 4 5 []).root = 4) ∧
    ((compute_root_from_path whash 3 4 5 []).path_values = []) ∧
    ((check_membership whash wEmptyB 3 4 5 [] 9).1 = true ↔ (4 : ZMod 101) = 9) ∧
    (finalizeAux (defEntry (ZMod 101) :: []) wTable =
      finalizeAux ([] : List (MerkleEntry (ZMod 101))) wTable)) :=
  ⟨rfl, c10_empty_path whash wEmptyB 3 4 5 9 (defEntry (ZMod 101)) [] wTable rfl⟩
